import Mathlib

/-!
Verification development for the lawxygen-drafting ingestion-and-retrieval core.

The embedded code comes from `src/ingest.py` (chunking, retrying embedder,
resumable ingestion with periodic saves), `src/app.py` (`load_vector_store`,
`get_embedding`, `search_documents`) and `src/main.py` (`ask`).  Python floats
are modelled as exact rationals; numpy's `argsort` is modelled as the stable
ascending sort (ties kept in index order, NaN values sorted to the end, which
is numpy's documented NaN placement and its actual behaviour on the small
arrays used in the concrete examples below).  Similarity values are carried
as exact descriptors `(dot v q, sumsq v)` standing for
`dot / (sqrt (sumsq v) * sqrt (sumsq q))`, so that comparisons of cosine
similarities are decidable; the bridge to the real-valued cosine similarity
is proved with `Real.sqrt`.
-/

namespace Lawxygen

/- ===================== Chunker: `chunk_text` (src/ingest.py 46-56) ===================== -/

/-- Python whitespace characters stripped by `str.strip()` (ASCII subset;
the sources only exercise ASCII whitespace). -/
def isPyWS (c : Char) : Bool :=
  c = ' ' || c = '\t' || c = '\n' || c = '\r' || c = '\x0b' || c = '\x0c'

/-- Truthiness of `chunk.strip()`: the chunk has at least one
non-whitespace character. -/
def hasContent (s : List Char) : Bool := s.any (fun c => !isPyWS c)

/-- Python slice `s[a:b]` for integer bounds, with negative-index
normalisation and clamping, exactly as CPython evaluates it. -/
def pySlice (s : List Char) (a b : Int) : List Char :=
  let n : Int := s.length
  let a2 : Int := if a < 0 then max 0 (n + a) else min a n
  let b2 : Int := if b < 0 then max 0 (n + b) else min b n
  (s.take b2.toNat).drop a2.toNat

/-- The loop of `chunk_text` (src/ingest.py 46-56), with explicit fuel:
`while start < len(text): chunk = text[start:start+chunk_size];
if chunk.strip(): chunks.append(chunk); start = start + chunk_size - overlap`.
`none` means the fuel ran out, i.e. the loop performed more iterations than
the fuel allows (for invalid parameters the loop need not terminate). -/
def chunkAux (text : List Char) (size overlap : Int) : Nat → Int → Option (List (List Char))
  | 0, _ => none
  | fuel + 1, start =>
    if start < (text.length : Int) then
      let c := pySlice text start (start + size)
      match chunkAux text size overlap fuel (start + size - overlap) with
      | none => none
      | some cs => some (if hasContent c then c :: cs else cs)
    else
      some []

/-- `chunk_text(text, chunk_size, overlap)` run with fuel `len(text) + 1`,
which is enough for every terminating run with a positive step
`size - overlap` (the window start strictly increases each iteration). -/
def chunk_text (text : List Char) (size overlap : Int) : Option (List (List Char)) :=
  chunkAux text size overlap (text.length + 1) 0

/- ===================== Vector store and ingestion (src/ingest.py 59-104) ===================== -/

/-- The persisted vector store: the two index-aligned lists of the JSON
object `{"embeddings": ..., "documents": ...}`. -/
structure VecStore where
  embeddings : List (List ℚ)
  documents : List String
deriving DecidableEq

/-- The embedding-and-store loop of `ingest_pdf` (src/ingest.py 81-102),
given a deterministic embedding provider `f`.  The result is the list of
successive store states written to disk: one entry per completed
checkpoint save (`(i + 1) % 10 == 0`, saving
`{"embeddings": embeddings, "documents": chunks[:len(embeddings)]}`)
followed by the final save `{"embeddings": embeddings, "documents": chunks}`.
`rest` is the remaining chunk list `chunks[i:]` and `i` the loop index. -/
def ingestGo (f : String → List ℚ) (allChunks : List String) :
    List String → Nat → List (List ℚ) → List VecStore
  | [], _, embs => [⟨embs, allChunks⟩]
  | c :: rest, i, embs =>
    let embs2 := embs ++ [f c]
    (if (i + 1) % 10 = 0 then [⟨embs2, allChunks.take embs2.length⟩] else [])
      ++ ingestGo f allChunks rest (i + 1) embs2

/-- All store states saved by a run of `ingest_pdf` on chunk list `chunks`
when the store on disk already holds `initEmb` (resume: the code sets
`start_idx = len(embeddings)` and loops over `chunks[start_idx:]`).
A fresh run is `initEmb = []`. -/
def ingestSaves (f : String → List ℚ) (chunks : List String)
    (initEmb : List (List ℚ)) : List VecStore :=
  ingestGo f chunks (chunks.drop initEmb.length) initEmb.length initEmb

/- ===================== Snapshot format (json.dump / json.load) ===================== -/

/-- JSON values, as produced by `json.dump` and consumed by `json.load`
(numbers as exact rationals; the stores only contain numbers, strings,
arrays and one object). -/
inductive Json where
  | null : Json
  | jbool : Bool → Json
  | num : ℚ → Json
  | str : String → Json
  | arr : List Json → Json
  | obj : List (String × Json) → Json

/-- The JSON object written by every save in `ingest_pdf`:
`{"embeddings": [[...], ...], "documents": ["...", ...]}`. -/
def storeToJson (s : VecStore) : Json :=
  .obj [("embeddings", .arr (s.embeddings.map (fun v => .arr (v.map .num)))),
        ("documents", .arr (s.documents.map .str))]

def lookupField : List (String × Json) → String → Option Json
  | [], _ => none
  | (k2, v) :: rest, k => if k2 = k then some v else lookupField rest k

/-- Dictionary access `parsed[key]` on a decoded JSON value. -/
def getField (j : Json) (k : String) : Option Json :=
  match j with
  | .obj fields => lookupField fields k
  | _ => none

def decNum : Json → Option ℚ
  | .num q => some q
  | _ => none

def decStr : Json → Option String
  | .str s => some s
  | _ => none

def decArr (f : Json → Option α) : Json → Option (List α)
  | .arr xs => xs.mapM f
  | _ => none

/-- `load_vector_store` (src/app.py 30-36, src/main.py 19-24) followed by the
consumers' field accesses `store["embeddings"]` / `store["documents"]`:
decode the snapshot back into the two lists. -/
def loadStore (j : Json) : Option VecStore :=
  match getField j "embeddings", getField j "documents" with
  | some ej, some dj =>
    match decArr (decArr decNum) ej, decArr decStr dj with
    | some e, some d => some ⟨e, d⟩
    | _, _ => none
  | _, _ => none

/-- The store's embedding dimension, read as `len(store["embeddings"][0])`
(src/app.py 297). -/
def dimension (s : VecStore) : Option Nat :=
  s.embeddings.head?.map List.length

/- ===================== The save discipline (src/ingest.py 86-102) ===================== -/

/-- File-level effect of a save step.  `open(path, "w")` truncates the
store file in place; `json.dump` then writes the serialized object.
The file contents are modelled as `Option Json`: `none` is a file that
`json.load` rejects (empty after truncation, or half-written). -/
inductive FileOp where
  | truncate : FileOp
  | write : Json → FileOp

def applyOp (_cur : Option Json) : FileOp → Option Json
  | .truncate => none
  | .write j => some j

/-- The operations every save in `ingest_pdf` performs on the store file:
`with open(VECTOR_STORE_PATH, "w") as f: json.dump(store, f)` —
truncate in place, then write the new snapshot.  There is no
temporary file and no rename. -/
def saveOps (s : VecStore) : List FileOp :=
  [.truncate, .write (storeToJson s)]

/-- The sequence of file contents observable by a reader (or left behind by
a crash) while `ops` run over a file holding `prior`. -/
def observableStates (prior : Option Json) (ops : List FileOp) : List (Option Json) :=
  ops.scanl applyOp prior

/- ===================== Retrying embedder (src/ingest.py 17-33, src/app.py 39-45, src/main.py 27-33, 123-140) ===================== -/

/-- Outcome of one provider call.  `isRate` models the classification
`"429" in str(e) or "rate" in str(e).lower()`; `tag` identifies the raised
exception object. -/
inductive CallOutcome (α : Type) where
  | success : α → CallOutcome α
  | failure : Bool → Nat → CallOutcome α

/-- What a call to the embedding (or chat) wrapper can produce in place of a
value: a re-raised provider exception, or `Exception("Max retries exceeded")`. -/
inductive EmbErr where
  | raised : Nat → EmbErr
  | maxRetriesExceeded : EmbErr
deriving DecidableEq

/-- The retry loop of `get_embedding` in src/ingest.py (17-33):
`for attempt in range(max_retries)`, on a rate-limit-classified exception
sleep `30 * (attempt + 1)` seconds and continue, on any other exception
re-raise immediately; after the loop raise `Max retries exceeded`.
Returns the result together with the list of sleeps performed. -/
def getEmbeddingGo (client : Nat → CallOutcome (List ℚ)) :
    Nat → Nat → List Nat → Except EmbErr (List ℚ) × List Nat
  | 0, _, sleeps => (.error .maxRetriesExceeded, sleeps)
  | r + 1, attempt, sleeps =>
    match client attempt with
    | .success v => (.ok v, sleeps)
    | .failure true _ => getEmbeddingGo client r (attempt + 1) (sleeps ++ [30 * (attempt + 1)])
    | .failure false tag => (.error (.raised tag), sleeps)

/-- `get_embedding(text, max_retries=3)` on the bulk-ingestion path
(src/ingest.py 17-33). -/
def getEmbeddingIngest (client : Nat → CallOutcome (List ℚ)) (maxRetries : Nat) :
    Except EmbErr (List ℚ) × List Nat :=
  getEmbeddingGo client maxRetries 0 []

/-- `get_embedding(text)` on the interactive query path (src/app.py 39-45
and src/main.py 27-33): a single provider call with no retry; any
exception propagates. -/
def getEmbeddingQuery (client : Nat → CallOutcome (List ℚ)) : Except EmbErr (List ℚ) :=
  match client 0 with
  | .success v => .ok v
  | .failure _ tag => .error (.raised tag)

/-- The retry loop around `mistral_client.chat.complete` in `ask`
(src/main.py 123-140): base 20 seconds, and after exhausting the three
attempts it RETURNS the string
`"Error: Rate limit exceeded. Please try again later."` instead of raising. -/
def askChatGo (client : Nat → CallOutcome String) :
    Nat → Nat → List Nat → Except EmbErr String × List Nat
  | 0, _, sleeps => (.ok "Error: Rate limit exceeded. Please try again later.", sleeps)
  | r + 1, attempt, sleeps =>
    match client attempt with
    | .success v => (.ok v, sleeps)
    | .failure true _ => askChatGo client r (attempt + 1) (sleeps ++ [20 * (attempt + 1)])
    | .failure false tag => (.error (.raised tag), sleeps)

def askChatRetry (client : Nat → CallOutcome String) : Except EmbErr String × List Nat :=
  askChatGo client 3 0 []

/- ===================== Similarity search (src/app.py 48-73, src/main.py 36-61) ===================== -/

def dotQ (a b : List ℚ) : ℚ := (List.zipWith (fun x y => x * y) a b).sum

/-- Squared Euclidean norm. -/
def sumsq (v : List ℚ) : ℚ := dotQ v v

/-- The exact descriptor of `similarities[i]`: the pair
`(np.dot(v, q), |v|^2)`, standing for the float
`np.dot(v / |v|, q / |q|) = dot / (sqrt (sumsq v) * sqrt (sumsq q))`. -/
def simKeys (embs : List (List ℚ)) (q : List ℚ) : List (ℚ × ℚ) :=
  embs.map (fun v => (dotQ v q, sumsq v))

/-- A descriptor stands for a finite float; otherwise the unguarded division
by a zero norm produced NaN. -/
def finKey (qn : ℚ) (a : ℚ × ℚ) : Bool := decide (0 < a.2) && decide (0 < qn)

/-- Exact strict comparison of two finite similarity values
`a.1 / sqrt a.2 < b.1 / sqrt b.2` (the common positive factor
`1 / sqrt qn` cancels), done by sign analysis and cross-multiplied squares. -/
def ltFin (a b : ℚ × ℚ) : Bool :=
  (decide (a.1 < 0) && decide (0 ≤ b.1)) ||
  (decide (0 ≤ a.1) && decide (0 ≤ b.1) && decide (a.1 * a.1 * b.2 < b.1 * b.1 * a.2)) ||
  (decide (a.1 < 0) && decide (b.1 < 0) && decide (b.1 * b.1 * a.2 < a.1 * a.1 * b.2))

/-- Exact equality of two finite similarity values. -/
def eqFin (a b : ℚ × ℚ) : Bool :=
  (decide (0 ≤ a.1) == decide (0 ≤ b.1)) && decide (a.1 * a.1 * b.2 = b.1 * b.1 * a.2)

/-- Strict "less-than" between similarity values as `np.argsort` orders them
ascending: finite values by their numeric order, NaN greater than every
finite value (numpy sorts NaN to the end). -/
def keyLT (qn : ℚ) (a b : ℚ × ℚ) : Bool :=
  if finKey qn a then
    if finKey qn b then ltFin a b else true
  else false

/-- Sort-equivalence between similarity values (equal finite values, or
both NaN). -/
def keyEQs (qn : ℚ) (a b : ℚ × ℚ) : Bool :=
  if finKey qn a then finKey qn b && eqFin a b
  else !finKey qn b

/-- The total order on candidate indices that `np.argsort(similarities)`
realises in the stable model: ascending similarity, ties kept in
insertion-index order. -/
def idxLE (keys : List (ℚ × ℚ)) (qn : ℚ) (i j : Nat) : Bool :=
  let a := keys.getD i (0, 0)
  let b := keys.getD j (0, 0)
  keyLT qn a b || (keyEQs qn a b && decide (i ≤ j))

/-- `np.argsort(similarities)` over the candidate indices `0 .. n-1`. -/
def argsortIdx (keys : List (ℚ × ℚ)) (qn : ℚ) (n : Nat) : List Nat :=
  List.insertionSort (fun i j => idxLE keys qn i j = true) (List.range n)

/-- Python slice `a[-k:]` for a natural `k`: the whole list when `k = 0`
(since `-0 == 0`), otherwise the last `min k (len a)` elements. -/
def lastSlice (k : Nat) (l : List α) : List α :=
  if k = 0 then l else l.drop (l.length - k)

/-- `top_indices = np.argsort(similarities)[-top_k:][::-1]`
(src/app.py 65, src/main.py 58). -/
def searchIndices (store : VecStore) (q : List ℚ) (k : Nat) : List Nat :=
  (lastSlice k (argsortIdx (simKeys store.embeddings q) (sumsq q)
    store.embeddings.length)).reverse

/-- One entry of the result list built in src/app.py 67-72:
the document text and the similarity descriptor of its score. -/
structure SearchHit where
  text : String
  dotq : ℚ
  nsq : ℚ
deriving DecidableEq

/-- Failures of the search path.  `degenerateVector` is the error the spec's
taxonomy prescribes for a zero norm; the embedded code below never
constructs it.  `shapeErr` models the `ValueError` numpy raises when the
query dimension does not match the stored vectors; `indexErr` the
`IndexError` of `store["documents"][i]`. -/
inductive SearchErr where
  | degenerateVector : SearchErr
  | shapeErr : SearchErr
  | indexErr : SearchErr
deriving DecidableEq

/-- The similarity descriptor of candidate `i`. -/
def keyAt (store : VecStore) (q : List ℚ) (i : Nat) : ℚ × ℚ :=
  (simKeys store.embeddings q).getD i (0, 0)

/-- The result entry for candidate `i`. -/
def hitAt (store : VecStore) (q : List ℚ) (i : Nat) : SearchHit :=
  ⟨store.documents.getD i "", (keyAt store q i).1, (keyAt store q i).2⟩

/-- `search_documents(question, top_k)` (src/app.py 48-73) after the query
has been embedded to `q`: return `[]` on an empty store, fail if the shapes
do not line up, otherwise normalise, rank by `argsort`, slice, reverse and
collect `{"text": documents[i], "score": similarities[i]}`.  The ranking
in `ask` (src/main.py 36-61) is the same computation. -/
def searchDocuments (store : VecStore) (q : List ℚ) (k : Nat) :
    Except SearchErr (List SearchHit) :=
  if store.embeddings = [] then .ok []
  else if store.embeddings.any (fun v => decide (v.length ≠ q.length)) then .error .shapeErr
  else
    (searchIndices store q k).mapM (fun i =>
      match store.documents.get? i, (simKeys store.embeddings q).get? i with
      | some t, some key => .ok ⟨t, key.1, key.2⟩
      | _, _ => .error .indexErr)

/-- The real-valued cosine similarity a finite descriptor stands for. -/
noncomputable def cosSim (key : ℚ × ℚ) (qn : ℚ) : ℝ :=
  (key.1 : ℝ) / (Real.sqrt key.2 * Real.sqrt qn)

instance {ε α : Type} [DecidableEq ε] [DecidableEq α] : DecidableEq (Except ε α) :=
  fun a b =>
    match a, b with
    | .error e, .error f =>
      if h : e = f then isTrue (by rw [h]) else isFalse (fun hh => by cases hh; exact h rfl)
    | .ok x, .ok y =>
      if h : x = y then isTrue (by rw [h]) else isFalse (fun hh => by cases hh; exact h rfl)
    | .error _, .ok _ => isFalse (fun hh => by cases hh)
    | .ok _, .error _ => isFalse (fun hh => by cases hh)

/- ===================== Chunker lemmas ===================== -/

/-- One-step unfolding of the chunking loop. -/
theorem chunkAux_succ (text : List Char) (size overlap : Int) (fuel : Nat) (start : Int) :
    chunkAux text size overlap (fuel + 1) start =
      if start < (text.length : Int) then
        match chunkAux text size overlap fuel (start + size - overlap) with
        | none => none
        | some cs =>
          some (if hasContent (pySlice text start (start + size))
            then pySlice text start (start + size) :: cs else cs)
      else some [] := rfl

theorem pySlice_zero_ge (s : List Char) (b : Int) (hb0 : 0 ≤ b)
    (hb : (s.length : Int) ≤ b) : pySlice s 0 b = s := by
  have hn : (0 : Int) ≤ (s.length : Int) := Int.natCast_nonneg _
  simp only [pySlice]
  rw [if_neg (by omega), if_neg (by omega), min_eq_left hn, min_eq_right hb]
  simp

/-- With a positive step `size - overlap`, the chunking loop terminates as
soon as the fuel covers the remaining distance to the end of the text. -/
theorem chunkAux_total (text : List Char) (size overlap : Int)
    (hstep : 0 < size - overlap) :
    ∀ (fuel : Nat) (start : Int), (text.length : Int) ≤ start + fuel →
      ∃ cs, chunkAux text size overlap (fuel + 1) start = some cs := by
  intro fuel
  induction fuel with
  | zero =>
    intro start h
    refine ⟨[], ?_⟩
    rw [chunkAux_succ, if_neg (by omega)]
  | succ f ih =>
    intro start h
    by_cases hlt : start < (text.length : Int)
    · obtain ⟨cs, hcs⟩ := ih (start + size - overlap) (by omega)
      refine ⟨if hasContent (pySlice text start (start + size))
        then pySlice text start (start + size) :: cs else cs, ?_⟩
      rw [chunkAux_succ, if_pos hlt, hcs]
    · refine ⟨[], ?_⟩
      rw [chunkAux_succ, if_neg hlt]

theorem chunk_text_total (text : List Char) (size overlap : Int)
    (h3 : overlap < size) :
    ∃ cs, chunk_text text size overlap = some cs :=
  chunkAux_total text size overlap (by omega) text.length 0 (by omega)

/-- For a non-empty text that fits in a single window, the first emitted
chunk is the whole text. -/
theorem chunk_text_single_window (text : List Char) (size overlap : Int)
    (h3 : overlap < size) (hlen : 0 < text.length)
    (hle : (text.length : Int) ≤ size) (hc : hasContent text = true) :
    ∃ rest, chunk_text text size overlap = some (text :: rest) := by
  have hfuel : text.length = (text.length - 1) + 1 := by omega
  have hslice : pySlice text 0 (0 + size) = text :=
    pySlice_zero_ge text (0 + size) (by omega) (by omega)
  obtain ⟨cs, hcs⟩ := chunkAux_total text size overlap (by omega)
    (text.length - 1) (0 + size - overlap) (by omega)
  refine ⟨cs, ?_⟩
  show chunkAux text size overlap (text.length + 1) 0 = some (text :: cs)
  rw [show text.length + 1 = ((text.length - 1) + 1) + 1 by omega, chunkAux_succ,
    if_pos (by exact_mod_cast hlen), hcs, hslice, hc]
  simp

/-- When additionally `size - overlap` reaches past the end of the text,
the single window is the only chunk. -/
theorem chunk_text_exactly_one (text : List Char) (size overlap : Int)
    (h2 : 0 ≤ overlap) (h3 : overlap < size) (hlen : 0 < text.length)
    (hle : (text.length : Int) ≤ size - overlap) (hc : hasContent text = true) :
    chunk_text text size overlap = some [text] := by
  have hslice : pySlice text 0 (0 + size) = text := by
    refine pySlice_zero_ge text (0 + size) (by omega) (by omega)
  show chunkAux text size overlap (text.length + 1) 0 = some [text]
  have hstop : chunkAux text size overlap text.length (0 + size - overlap)
      = some [] := by
    rw [show text.length = (text.length - 1) + 1 by omega, chunkAux_succ,
      if_neg (by omega)]
  rw [chunkAux_succ, if_pos (by exact_mod_cast hlen), hstop, hslice, hc]
  simp

/- ===================== Ingestion lemmas ===================== -/

/-- The final save of the ingestion loop: all remaining chunks embedded and
appended, documents set to the full chunk list. -/
theorem ingestGo_getLast (f : String → List ℚ) (all : List String) :
    ∀ (rest : List String) (i : Nat) (embs : List (List ℚ)),
      (ingestGo f all rest i embs).getLast? = some ⟨embs ++ rest.map f, all⟩ := by
  intro rest
  induction rest with
  | nil => intro i embs; simp [ingestGo]
  | cons c r ih =>
    intro i embs
    simp only [ingestGo, List.getLast?_append, ih, Option.or_some]
    simp

/-- Every state saved by the loop, started from the aligned prefix `pre`
of the chunk list, is the embedded image of a prefix of the chunk list. -/
theorem ingestGo_states (f : String → List ℚ) (all : List String) :
    ∀ (rest pre : List String), all = pre ++ rest →
      ∀ s ∈ ingestGo f all rest pre.length (pre.map f),
        ∃ m, m ≤ all.length ∧ s = ⟨(all.take m).map f, all.take m⟩ := by
  intro rest
  induction rest with
  | nil =>
    intro pre hall s hs
    simp only [ingestGo, List.mem_singleton] at hs
    refine ⟨all.length, le_refl _, ?_⟩
    rw [hs, List.take_length]
    have : pre = all := by rw [hall, List.append_nil]
    rw [this]
  | cons c r ih =>
    intro pre hall s hs
    have htake : all.take (pre.length + 1) = pre ++ [c] := by
      rw [hall, List.take_append 1, List.take_succ_cons, List.take_zero]
    have hpre1 : (pre ++ [c]).length = pre.length + 1 := by simp
    simp only [ingestGo, List.mem_append] at hs
    rcases hs with hs | hs
    · by_cases h10 : (pre.length + 1) % 10 = 0
      · rw [if_pos h10] at hs
        simp only [List.mem_singleton] at hs
        refine ⟨pre.length + 1, ?_, ?_⟩
        · rw [hall]; simp only [List.length_append, List.length_cons]; omega
        · rw [hs, htake]
          have hlen : ((pre ++ [c]).map f).length = pre.length + 1 := by simp
          rw [show pre.map f ++ [f c] = (pre ++ [c]).map f by simp, hlen, htake]
      · rw [if_neg h10] at hs
        simp at hs
    · have hall2 : all = (pre ++ [c]) ++ r := by rw [hall]; simp
      have := ih (pre ++ [c]) hall2 s
      rw [hpre1] at this
      rw [show pre.map f ++ [f c] = (pre ++ [c]).map f by simp] at hs
      exact this hs

/-- If `m` is a checkpoint index (a multiple of ten within the run's range),
the store holding exactly the first `m` embedded chunks is among the saved
states. -/
theorem ingestGo_mem_checkpoint (f : String → List ℚ) (all : List String) :
    ∀ (rest pre : List String), all = pre ++ rest →
      ∀ m, pre.length < m → m ≤ all.length → m % 10 = 0 →
        (⟨(all.take m).map f, all.take m⟩ : VecStore) ∈
          ingestGo f all rest pre.length (pre.map f) := by
  intro rest
  induction rest with
  | nil =>
    intro pre hall m hm1 hm2 _
    exfalso
    rw [hall, List.append_nil] at hm2
    omega
  | cons c r ih =>
    intro pre hall m hm1 hm2 h10
    have htake : all.take (pre.length + 1) = pre ++ [c] := by
      rw [hall, List.take_append 1, List.take_succ_cons, List.take_zero]
    have hmap : pre.map f ++ [f c] = (pre ++ [c]).map f := by simp
    simp only [ingestGo, List.mem_append]
    by_cases heq : m = pre.length + 1
    · left
      rw [if_pos (heq ▸ h10)]
      have hlen : ((pre ++ [c]).map f).length = pre.length + 1 := by simp
      simp only [List.mem_singleton]
      rw [hmap, hlen, heq, htake]
    · right
      have hall2 : all = (pre ++ [c]) ++ r := by rw [hall]; simp
      have := ih (pre ++ [c]) hall2 m (by simp; omega) hm2 h10
      simp only [List.length_append, List.length_singleton] at this
      rw [hmap]
      exact this

/-- With `overlap = size` on the non-empty text `"ab"`, the window start
never advances: the loop runs forever, so no amount of fuel produces a
result. -/
theorem chunkAux_diverges (fuel : Nat) : chunkAux "ab".data 1 1 fuel 0 = none := by
  induction fuel with
  | zero => rfl
  | succ f ih =>
    simp only [chunkAux]
    rw [if_pos (by decide)]
    have harg : (0 : Int) + 1 - 1 = 0 := by decide
    rw [harg, ih]

/- ===================== Similarity order: bridge to the reals ===================== -/

theorem div_sqrt_lt_iff (u v A B : ℝ) (hA : 0 < A) (hB : 0 < B) :
    u / Real.sqrt A < v / Real.sqrt B ↔
      (u < 0 ∧ 0 ≤ v) ∨ (0 ≤ u ∧ 0 ≤ v ∧ u * u * B < v * v * A) ∨
        (u < 0 ∧ v < 0 ∧ v * v * A < u * u * B) := by
  have hsA : 0 < Real.sqrt A := Real.sqrt_pos.mpr hA
  have hsB : 0 < Real.sqrt B := Real.sqrt_pos.mpr hB
  have hA2 : Real.sqrt A * Real.sqrt A = A := Real.mul_self_sqrt hA.le
  have hB2 : Real.sqrt B * Real.sqrt B = B := Real.mul_self_sqrt hB.le
  rw [div_lt_div_iff₀ hsA hsB]
  rcases lt_or_le u 0 with hu | hu <;> rcases lt_or_le v 0 with hv | hv
  · -- both negative
    have h1 : u * Real.sqrt B < v * Real.sqrt A ↔
        -(v * Real.sqrt A) < -(u * Real.sqrt B) := by constructor <;> intro h <;> linarith
    have h2 : -(v * Real.sqrt A) < -(u * Real.sqrt B) ↔
        -(v * Real.sqrt A) * -(v * Real.sqrt A) < -(u * Real.sqrt B) * -(u * Real.sqrt B) :=
      mul_self_lt_mul_self_iff (by nlinarith) (by nlinarith)
    have h3 : -(v * Real.sqrt A) * -(v * Real.sqrt A) = v * v * A := by
      have : -(v * Real.sqrt A) * -(v * Real.sqrt A)
          = (v * v) * (Real.sqrt A * Real.sqrt A) := by ring
      rw [this, hA2]
    have h4 : -(u * Real.sqrt B) * -(u * Real.sqrt B) = u * u * B := by
      have : -(u * Real.sqrt B) * -(u * Real.sqrt B)
          = (u * u) * (Real.sqrt B * Real.sqrt B) := by ring
      rw [this, hB2]
    rw [h1, h2, h3, h4]
    constructor
    · intro h; exact Or.inr (Or.inr ⟨hu, hv, h⟩)
    · rintro (⟨_, h⟩ | ⟨h, _⟩ | ⟨_, _, h⟩) <;> first | exact h | linarith
  · -- u < 0 ≤ v : strictly smaller
    have h : u * Real.sqrt B < v * Real.sqrt A :=
      lt_of_lt_of_le (mul_neg_of_neg_of_pos hu hsB) (mul_nonneg hv hsA.le)
    constructor
    · intro _; exact Or.inl ⟨hu, hv⟩
    · intro _; exact h
  · -- 0 ≤ u, v < 0 : strictly larger
    have h : ¬ (u * Real.sqrt B < v * Real.sqrt A) := by
      have h1 : v * Real.sqrt A < 0 := mul_neg_of_neg_of_pos hv hsA
      have h2 : 0 ≤ u * Real.sqrt B := mul_nonneg hu hsB.le
      linarith
    constructor
    · intro hcon; exact absurd hcon h
    · rintro (⟨hcon, _⟩ | ⟨_, hcon, _⟩ | ⟨hcon, _, _⟩) <;> linarith
  · -- both nonnegative
    have h2 : u * Real.sqrt B < v * Real.sqrt A ↔
        u * Real.sqrt B * (u * Real.sqrt B) < v * Real.sqrt A * (v * Real.sqrt A) :=
      mul_self_lt_mul_self_iff (mul_nonneg hu hsB.le) (mul_nonneg hv hsA.le)
    have h3 : u * Real.sqrt B * (u * Real.sqrt B) = u * u * B := by
      have : u * Real.sqrt B * (u * Real.sqrt B)
          = (u * u) * (Real.sqrt B * Real.sqrt B) := by ring
      rw [this, hB2]
    have h4 : v * Real.sqrt A * (v * Real.sqrt A) = v * v * A := by
      have : v * Real.sqrt A * (v * Real.sqrt A)
          = (v * v) * (Real.sqrt A * Real.sqrt A) := by ring
      rw [this, hA2]
    rw [h2, h3, h4]
    constructor
    · intro h; exact Or.inr (Or.inl ⟨hu, hv, h⟩)
    · rintro (⟨h, _⟩ | ⟨_, _, h⟩ | ⟨h, _, _⟩) <;> first | exact h | linarith

theorem div_sqrt_eq_iff (u v A B : ℝ) (hA : 0 < A) (hB : 0 < B) :
    u / Real.sqrt A = v / Real.sqrt B ↔
      ((0 ≤ u ↔ 0 ≤ v) ∧ u * u * B = v * v * A) := by
  have hsA : 0 < Real.sqrt A := Real.sqrt_pos.mpr hA
  have hsB : 0 < Real.sqrt B := Real.sqrt_pos.mpr hB
  have hA2 : Real.sqrt A * Real.sqrt A = A := Real.mul_self_sqrt hA.le
  have hB2 : Real.sqrt B * Real.sqrt B = B := Real.mul_self_sqrt hB.le
  rw [div_eq_div_iff hsA.ne' hsB.ne']
  rcases lt_or_le u 0 with hu | hu <;> rcases lt_or_le v 0 with hv | hv
  · -- both negative
    have h1 : u * Real.sqrt B = v * Real.sqrt A ↔
        -(u * Real.sqrt B) = -(v * Real.sqrt A) := by constructor <;> intro h <;> linarith
    have h2 : -(u * Real.sqrt B) = -(v * Real.sqrt A) ↔
        -(u * Real.sqrt B) * -(u * Real.sqrt B) = -(v * Real.sqrt A) * -(v * Real.sqrt A) :=
      (mul_self_inj (by nlinarith) (by nlinarith)).symm
    have h3 : -(u * Real.sqrt B) * -(u * Real.sqrt B) = u * u * B := by
      have : -(u * Real.sqrt B) * -(u * Real.sqrt B)
          = (u * u) * (Real.sqrt B * Real.sqrt B) := by ring
      rw [this, hB2]
    have h4 : -(v * Real.sqrt A) * -(v * Real.sqrt A) = v * v * A := by
      have : -(v * Real.sqrt A) * -(v * Real.sqrt A)
          = (v * v) * (Real.sqrt A * Real.sqrt A) := by ring
      rw [this, hA2]
    rw [h1, h2, h3, h4]
    constructor
    · intro h; exact ⟨by constructor <;> intro hc <;> linarith, h⟩
    · rintro ⟨_, h⟩; exact h
  · -- u < 0 ≤ v
    have h1 : u * Real.sqrt B < 0 := mul_neg_of_neg_of_pos hu hsB
    have h2 : 0 ≤ v * Real.sqrt A := mul_nonneg hv hsA.le
    constructor
    · intro h; exfalso; linarith
    · rintro ⟨hiff, _⟩; exfalso; have := hiff.mpr hv; linarith
  · -- 0 ≤ u, v < 0
    have h1 : v * Real.sqrt A < 0 := mul_neg_of_neg_of_pos hv hsA
    have h2 : 0 ≤ u * Real.sqrt B := mul_nonneg hu hsB.le
    constructor
    · intro h; exfalso; linarith
    · rintro ⟨hiff, _⟩; exfalso; have := hiff.mp hu; linarith
  · -- both nonnegative
    have h2 : u * Real.sqrt B = v * Real.sqrt A ↔
        u * Real.sqrt B * (u * Real.sqrt B) = v * Real.sqrt A * (v * Real.sqrt A) :=
      (mul_self_inj (mul_nonneg hu hsB.le) (mul_nonneg hv hsA.le)).symm
    have h3 : u * Real.sqrt B * (u * Real.sqrt B) = u * u * B := by
      have : u * Real.sqrt B * (u * Real.sqrt B)
          = (u * u) * (Real.sqrt B * Real.sqrt B) := by ring
      rw [this, hB2]
    have h4 : v * Real.sqrt A * (v * Real.sqrt A) = v * v * A := by
      have : v * Real.sqrt A * (v * Real.sqrt A)
          = (v * v) * (Real.sqrt A * Real.sqrt A) := by ring
      rw [this, hA2]
    rw [h2, h3, h4]
    constructor
    · intro h; exact ⟨by constructor <;> intro _ <;> assumption, h⟩
    · rintro ⟨_, h⟩; exact h

theorem finKey_iff (qn : ℚ) (a : ℚ × ℚ) : finKey qn a = true ↔ 0 < a.2 ∧ 0 < qn := by
  simp [finKey]

/-- For finite descriptors the boolean comparison agrees with the
real-valued cosine similarity. -/
theorem keyLT_fin_iff (qn : ℚ) (a b : ℚ × ℚ)
    (hfa : finKey qn a = true) (hfb : finKey qn b = true) :
    keyLT qn a b = true ↔ cosSim a qn < cosSim b qn := by
  obtain ⟨ha, hq⟩ := (finKey_iff qn a).mp hfa
  obtain ⟨hb, _⟩ := (finKey_iff qn b).mp hfb
  have haR : (0:ℝ) < ((a.2 : ℚ) : ℝ) := by exact_mod_cast ha
  have hbR : (0:ℝ) < ((b.2 : ℚ) : ℝ) := by exact_mod_cast hb
  have hqR : (0:ℝ) < ((qn : ℚ) : ℝ) := by exact_mod_cast hq
  have hsq : (0:ℝ) < Real.sqrt qn := Real.sqrt_pos.mpr hqR
  rw [keyLT, if_pos hfa, if_pos hfb]
  have hcos : (cosSim a qn < cosSim b qn) ↔
      ((a.1 : ℝ) / Real.sqrt a.2 < (b.1 : ℝ) / Real.sqrt b.2) := by
    rw [cosSim, cosSim, ← div_div, ← div_div]
    exact div_lt_div_iff_of_pos_right hsq
  rw [hcos, div_sqrt_lt_iff _ _ _ _ haR hbR, ltFin]
  simp only [Bool.or_eq_true, Bool.and_eq_true, decide_eq_true_iff, and_assoc, or_assoc]
  constructor
  · intro h; exact_mod_cast h
  · intro h; exact_mod_cast h

theorem keyEQs_fin_iff (qn : ℚ) (a b : ℚ × ℚ)
    (hfa : finKey qn a = true) (hfb : finKey qn b = true) :
    keyEQs qn a b = true ↔ cosSim a qn = cosSim b qn := by
  obtain ⟨ha, hq⟩ := (finKey_iff qn a).mp hfa
  obtain ⟨hb, _⟩ := (finKey_iff qn b).mp hfb
  have haR : (0:ℝ) < ((a.2 : ℚ) : ℝ) := by exact_mod_cast ha
  have hbR : (0:ℝ) < ((b.2 : ℚ) : ℝ) := by exact_mod_cast hb
  have hqR : (0:ℝ) < ((qn : ℚ) : ℝ) := by exact_mod_cast hq
  have hsq : (0:ℝ) < Real.sqrt qn := Real.sqrt_pos.mpr hqR
  rw [keyEQs, if_pos hfa, hfb]
  have hcos : (cosSim a qn = cosSim b qn) ↔
      ((a.1 : ℝ) / Real.sqrt a.2 = (b.1 : ℝ) / Real.sqrt b.2) := by
    rw [cosSim, cosSim, ← div_div, ← div_div,
      div_eq_div_iff hsq.ne' hsq.ne', mul_left_inj' hsq.ne']
  rw [hcos, div_sqrt_eq_iff _ _ _ _ haR hbR, eqFin]
  simp only [Bool.true_and, Bool.and_eq_true, decide_eq_true_iff, beq_iff_eq,
    decide_eq_decide]
  constructor
  · rintro ⟨h1, h2⟩
    constructor
    · constructor <;> intro hc
      · exact_mod_cast (h1.mp (by exact_mod_cast hc))
      · exact_mod_cast (h1.mpr (by exact_mod_cast hc))
    · exact_mod_cast h2
  · rintro ⟨h1, h2⟩
    constructor
    · constructor <;> intro hc
      · exact_mod_cast (h1.mp (by exact_mod_cast hc))
      · exact_mod_cast (h1.mpr (by exact_mod_cast hc))
    · exact_mod_cast h2

theorem keyLT_nan_right (qn : ℚ) (a b : ℚ × ℚ)
    (hfa : finKey qn a = true) (hfb : finKey qn b = false) :
    keyLT qn a b = true := by
  rw [keyLT, if_pos hfa, hfb]
  simp

theorem keyLT_nan_left (qn : ℚ) (a b : ℚ × ℚ) (hfa : finKey qn a = false) :
    keyLT qn a b = false := by
  rw [keyLT, hfa]
  simp

theorem keyLT_fin_of_true (qn : ℚ) (a b : ℚ × ℚ) (h : keyLT qn a b = true) :
    finKey qn a = true := by
  by_contra hc
  rw [keyLT_nan_left qn a b (Bool.not_eq_true _ ▸ Bool.of_not_eq_true hc)] at h
  exact Bool.false_ne_true h

theorem keyEQs_nan_iff (qn : ℚ) (a b : ℚ × ℚ) (hfa : finKey qn a = false) :
    (keyEQs qn a b = true ↔ finKey qn b = false) := by
  rw [keyEQs, hfa]
  simp

theorem keyEQs_fin_of_true (qn : ℚ) (a b : ℚ × ℚ)
    (hfa : finKey qn a = true) (h : keyEQs qn a b = true) :
    finKey qn b = true := by
  rw [keyEQs, if_pos hfa, Bool.and_eq_true] at h
  exact h.1

theorem key_trichotomy (qn : ℚ) (a b : ℚ × ℚ) :
    keyLT qn a b = true ∨ keyEQs qn a b = true ∨ keyLT qn b a = true := by
  cases hfa : finKey qn a <;> cases hfb : finKey qn b
  · exact Or.inr (Or.inl ((keyEQs_nan_iff qn a b hfa).mpr hfb))
  · exact Or.inr (Or.inr (keyLT_nan_right qn b a hfb hfa))
  · exact Or.inl (keyLT_nan_right qn a b hfa hfb)
  · rcases lt_trichotomy (cosSim a qn) (cosSim b qn) with h | h | h
    · exact Or.inl ((keyLT_fin_iff qn a b hfa hfb).mpr h)
    · exact Or.inr (Or.inl ((keyEQs_fin_iff qn a b hfa hfb).mpr h))
    · exact Or.inr (Or.inr ((keyLT_fin_iff qn b a hfb hfa).mpr h))

theorem keyEQs_symm (qn : ℚ) (a b : ℚ × ℚ) (h : keyEQs qn a b = true) :
    keyEQs qn b a = true := by
  cases hfa : finKey qn a <;> cases hfb : finKey qn b
  · exact (keyEQs_nan_iff qn b a hfb).mpr hfa
  · exact absurd ((keyEQs_nan_iff qn a b hfa).mp h) (by rw [hfb]; exact fun hc => Bool.false_ne_true hc.symm)
  · exact absurd (keyEQs_fin_of_true qn a b hfa h) (by rw [hfb]; exact Bool.false_ne_true)
  · exact (keyEQs_fin_iff qn b a hfb hfa).mpr ((keyEQs_fin_iff qn a b hfa hfb).mp h).symm

theorem keyLT_trans (qn : ℚ) (a b c : ℚ × ℚ)
    (h1 : keyLT qn a b = true) (h2 : keyLT qn b c = true) :
    keyLT qn a c = true := by
  have hfa := keyLT_fin_of_true qn a b h1
  have hfb := keyLT_fin_of_true qn b c h2
  cases hfc : finKey qn c
  · exact keyLT_nan_right qn a c hfa hfc
  · exact (keyLT_fin_iff qn a c hfa hfc).mpr
      (lt_trans ((keyLT_fin_iff qn a b hfa hfb).mp h1)
        ((keyLT_fin_iff qn b c hfb hfc).mp h2))

theorem keyLT_of_lt_eq (qn : ℚ) (a b c : ℚ × ℚ)
    (h1 : keyLT qn a b = true) (h2 : keyEQs qn b c = true) :
    keyLT qn a c = true := by
  have hfa := keyLT_fin_of_true qn a b h1
  cases hfb : finKey qn b
  · exact keyLT_nan_right qn a c hfa ((keyEQs_nan_iff qn b c hfb).mp h2)
  · have hfc := keyEQs_fin_of_true qn b c hfb h2
    exact (keyLT_fin_iff qn a c hfa hfc).mpr
      (lt_of_lt_of_eq ((keyLT_fin_iff qn a b hfa hfb).mp h1)
        ((keyEQs_fin_iff qn b c hfb hfc).mp h2))

theorem keyLT_of_eq_lt (qn : ℚ) (a b c : ℚ × ℚ)
    (h1 : keyEQs qn a b = true) (h2 : keyLT qn b c = true) :
    keyLT qn a c = true := by
  have hfb := keyLT_fin_of_true qn b c h2
  cases hfa : finKey qn a
  · exfalso
    have := (keyEQs_nan_iff qn a b hfa).mp h1
    rw [this] at hfb
    exact Bool.false_ne_true hfb
  · cases hfc : finKey qn c
    · exact keyLT_nan_right qn a c hfa hfc
    · exact (keyLT_fin_iff qn a c hfa hfc).mpr
        (lt_of_eq_of_lt ((keyEQs_fin_iff qn a b hfa hfb).mp h1)
          ((keyLT_fin_iff qn b c hfb hfc).mp h2))

theorem keyEQs_trans (qn : ℚ) (a b c : ℚ × ℚ)
    (h1 : keyEQs qn a b = true) (h2 : keyEQs qn b c = true) :
    keyEQs qn a c = true := by
  cases hfa : finKey qn a
  · have hfb := (keyEQs_nan_iff qn a b hfa).mp h1
    exact (keyEQs_nan_iff qn a c hfa).mpr ((keyEQs_nan_iff qn b c hfb).mp h2)
  · have hfb := keyEQs_fin_of_true qn a b hfa h1
    have hfc := keyEQs_fin_of_true qn b c hfb h2
    exact (keyEQs_fin_iff qn a c hfa hfc).mpr
      (((keyEQs_fin_iff qn a b hfa hfb).mp h1).trans
        ((keyEQs_fin_iff qn b c hfb hfc).mp h2))

/-- Totality of the argsort index order. -/
theorem idxLE_total (keys : List (ℚ × ℚ)) (qn : ℚ) (i j : Nat) :
    idxLE keys qn i j = true ∨ idxLE keys qn j i = true := by
  simp only [idxLE, Bool.or_eq_true, Bool.and_eq_true, decide_eq_true_iff]
  rcases key_trichotomy qn (keys.getD i (0, 0)) (keys.getD j (0, 0)) with h | h | h
  · exact Or.inl (Or.inl h)
  · rcases Nat.le_total i j with hij | hij
    · exact Or.inl (Or.inr ⟨h, hij⟩)
    · exact Or.inr (Or.inr ⟨keyEQs_symm qn _ _ h, hij⟩)
  · exact Or.inr (Or.inl h)

/-- Transitivity of the argsort index order. -/
theorem idxLE_trans (keys : List (ℚ × ℚ)) (qn : ℚ) (i j k : Nat)
    (h1 : idxLE keys qn i j = true) (h2 : idxLE keys qn j k = true) :
    idxLE keys qn i k = true := by
  simp only [idxLE, Bool.or_eq_true, Bool.and_eq_true, decide_eq_true_iff] at h1 h2 ⊢
  rcases h1 with h1 | ⟨h1, hij⟩ <;> rcases h2 with h2 | ⟨h2, hjk⟩
  · exact Or.inl (keyLT_trans qn _ _ _ h1 h2)
  · exact Or.inl (keyLT_of_lt_eq qn _ _ _ h1 h2)
  · exact Or.inl (keyLT_of_eq_lt qn _ _ _ h1 h2)
  · exact Or.inr ⟨keyEQs_trans qn _ _ _ h1 h2, le_trans hij hjk⟩

/- ===================== Structural lemmas about the search pipeline ===================== -/

theorem argsortIdx_perm (keys : List (ℚ × ℚ)) (qn : ℚ) (n : Nat) :
    (argsortIdx keys qn n).Perm (List.range n) :=
  List.perm_insertionSort _ _

theorem argsortIdx_length (keys : List (ℚ × ℚ)) (qn : ℚ) (n : Nat) :
    (argsortIdx keys qn n).length = n := by
  rw [(argsortIdx_perm keys qn n).length_eq, List.length_range]

theorem argsortIdx_mem_lt (keys : List (ℚ × ℚ)) (qn : ℚ) (n i : Nat)
    (h : i ∈ argsortIdx keys qn n) : i < n := by
  have := (argsortIdx_perm keys qn n).mem_iff.mp h
  exact List.mem_range.mp this

theorem argsortIdx_nodup (keys : List (ℚ × ℚ)) (qn : ℚ) (n : Nat) :
    (argsortIdx keys qn n).Nodup :=
  ((argsortIdx_perm keys qn n).nodup_iff).mpr (List.nodup_range n)

theorem argsortIdx_sorted (keys : List (ℚ × ℚ)) (qn : ℚ) (n : Nat) :
    List.Sorted (fun i j => idxLE keys qn i j = true) (argsortIdx keys qn n) := by
  haveI : IsTotal ℕ (fun i j => idxLE keys qn i j = true) := ⟨idxLE_total keys qn⟩
  haveI : IsTrans ℕ (fun i j => idxLE keys qn i j = true) :=
    ⟨fun a b c => idxLE_trans keys qn a b c⟩
  exact List.sorted_insertionSort _ _

theorem lastSlice_zero (l : List α) : lastSlice 0 l = l := rfl

theorem lastSlice_sublist (k : Nat) (l : List α) : (lastSlice k l).Sublist l := by
  rw [lastSlice]
  by_cases hk : k = 0
  · rw [if_pos hk]
  · rw [if_neg hk]
    exact List.drop_sublist _ _

theorem lastSlice_length (k : Nat) (l : List α) (hk : k ≠ 0) :
    (lastSlice k l).length = min k l.length := by
  rw [lastSlice, if_neg hk, List.length_drop]
  omega

theorem lastSlice_all (k : Nat) (l : List α) (hk : l.length ≤ k) :
    lastSlice k l = l := by
  rw [lastSlice]
  by_cases h0 : k = 0
  · rw [if_pos h0]
  · rw [if_neg h0, show l.length - k = 0 by omega, List.drop_zero]

theorem searchIndices_mem_lt (store : VecStore) (q : List ℚ) (k i : Nat)
    (h : i ∈ searchIndices store q k) : i < store.embeddings.length := by
  rw [searchIndices, List.mem_reverse] at h
  exact argsortIdx_mem_lt _ _ _ _ ((lastSlice_sublist _ _).mem h)

theorem searchIndices_length (store : VecStore) (q : List ℚ) (k : Nat) (hk : k ≠ 0) :
    (searchIndices store q k).length = min k store.embeddings.length := by
  rw [searchIndices, List.length_reverse, lastSlice_length _ _ hk, argsortIdx_length]

/-- The returned index sequence is pairwise strictly descending in the
argsort order: the later index is `idxLE`-below the earlier one and distinct
from it. -/
theorem searchIndices_pairwise (store : VecStore) (q : List ℚ) (k : Nat) :
    List.Pairwise (fun i j =>
      idxLE (simKeys store.embeddings q) (sumsq q) j i = true ∧ j ≠ i)
      (searchIndices store q k) := by
  have hsorted := argsortIdx_sorted (simKeys store.embeddings q) (sumsq q)
    store.embeddings.length
  have hnodup := argsortIdx_nodup (simKeys store.embeddings q) (sumsq q)
    store.embeddings.length
  have hslice := List.Pairwise.sublist (lastSlice_sublist k _)
    (hsorted.and (List.Pairwise.imp (fun h => h) hnodup))
  rw [searchIndices, List.pairwise_reverse]
  exact hslice

theorem sumsq_nonneg (v : List ℚ) : 0 ≤ sumsq v := by
  rw [sumsq, dotQ, List.zipWith_same]
  exact List.sum_nonneg (by
    intro x hx
    obtain ⟨a, _, ha⟩ := List.mem_map.mp hx
    rw [← ha]
    exact mul_self_nonneg a)

theorem simKeys_length (embs : List (List ℚ)) (q : List ℚ) :
    (simKeys embs q).length = embs.length := by
  rw [simKeys, List.length_map]

/-- In range, the descriptor of candidate `i` is built from the `i`-th
stored vector. -/
theorem keyAt_in_range (store : VecStore) (q : List ℚ) (i : Nat)
    (h : i < store.embeddings.length) :
    keyAt store q i = ((simKeys store.embeddings q).get
      ⟨i, by rw [simKeys_length]; exact h⟩) := by
  rw [keyAt, List.getD_eq_getElem?_getD, List.getElem?_eq_getElem
    (by rw [simKeys_length]; exact h)]
  rfl

theorem keyAt_fin (store : VecStore) (q : List ℚ) (i : Nat)
    (h : i < store.embeddings.length)
    (hq : sumsq q ≠ 0) (hv : ∀ v ∈ store.embeddings, sumsq v ≠ 0) :
    finKey (sumsq q) (keyAt store q i) = true := by
  rw [keyAt_in_range store q i h]
  have hget : (simKeys store.embeddings q).get ⟨i, by rw [simKeys_length]; exact h⟩
      = (dotQ (store.embeddings.get ⟨i, h⟩) q, sumsq (store.embeddings.get ⟨i, h⟩)) := by
    simp [simKeys]
  rw [hget, finKey_iff]
  refine ⟨?_, ?_⟩
  · have hmem : store.embeddings.get ⟨i, h⟩ ∈ store.embeddings := List.get_mem _ _ _
    have := hv _ hmem
    have hnn := sumsq_nonneg (store.embeddings.get ⟨i, h⟩)
    exact lt_of_le_of_ne hnn (Ne.symm this)
  · exact lt_of_le_of_ne (sumsq_nonneg q) (Ne.symm hq)

/-- Successful elementwise access: `mapM` of an everywhere-`ok` function. -/
theorem mapM_ok_of_forall {ε β : Type} (l : List Nat) (f : Nat → Except ε β)
    (g : Nat → β) (h : ∀ x ∈ l, f x = .ok (g x)) : l.mapM f = .ok (l.map g) := by
  induction l with
  | nil => rfl
  | cons a l ih =>
    rw [List.mapM_cons, h a (List.mem_cons_self a l),
      ih (fun x hx => h x (List.mem_cons_of_mem a hx))]
    rfl

/-- In range, the result entry built by `search_documents` for candidate `i`
is `hitAt store q i`. -/
theorem search_entry_ok (store : VecStore) (q : List ℚ) (i : Nat)
    (hd : i < store.documents.length) (he : i < store.embeddings.length) :
    (match store.documents.get? i, (simKeys store.embeddings q).get? i with
      | some t, some key => Except.ok (⟨t, key.1, key.2⟩ : SearchHit)
      | _, _ => Except.error SearchErr.indexErr) = Except.ok (hitAt store q i) := by
  have hks : i < (simKeys store.embeddings q).length := by
    rw [simKeys_length]; exact he
  rw [List.get?_eq_get hd, List.get?_eq_get hks]
  rw [hitAt, keyAt_in_range store q i he]
  have hdoc : store.documents.getD i "" = store.documents.get ⟨i, hd⟩ := by
    rw [List.getD_eq_getElem?_getD, List.getElem?_eq_getElem hd]
    rfl
  rw [hdoc]

/- ===================== Claim theorems ===================== -/

/-- C6 counterexample: with valid parameters `size = 10`, `overlap = 8` and
the non-blank text `"hello"` of length `5 <= size`, `chunk_text` returns
THREE chunks, not one: after the first window covers the whole text, the
start advances only by `size - overlap = 2 < len(text)`, so further windows
emit the trailing fragments `"llo"` and `"o"`.  This refutes the part of the
claim that every non-blank text with `0 < len(text) <= size` yields exactly
one chunk. -/
theorem chunk_single_window_counterexample :
    chunk_text "hello".data 10 8 = some ["hello".data, "llo".data, "o".data] ∧
    some ["hello".data, "llo".data, "o".data] ≠ some ["hello".data] := by
  constructor
  · decide
  · decide

/-- C6 (amended): for every valid `size`/`overlap`, chunking the empty string
returns the empty sequence; for a non-blank text with `0 < len(text) <= size`
the FIRST chunk is the whole text, and it is the only chunk if additionally
`size - overlap >= len(text)`.  When `size - overlap < len(text)` later
windows may emit trailing fragments, as in the counterexample (they need
not: a whitespace-only trailing window is dropped, so the bound is
sufficient, not necessary, for a single chunk). -/
theorem chunk_edge_cases (size overlap : Int) (text : List Char)
    (_h1 : 0 < size) (h2 : 0 ≤ overlap) (h3 : overlap < size) :
    chunk_text [] size overlap = some [] ∧
    (0 < text.length → (text.length : Int) ≤ size → hasContent text = true →
      ∃ rest, chunk_text text size overlap = some (text :: rest)) ∧
    (0 < text.length → (text.length : Int) ≤ size - overlap → hasContent text = true →
      chunk_text text size overlap = some [text]) := by
  refine ⟨?_, ?_, ?_⟩
  · rfl
  · intro h4 h5 h6
    exact chunk_text_single_window text size overlap h3 h4 h5 h6
  · intro h4 h5 h6
    exact chunk_text_exactly_one text size overlap h2 h3 h4 h5 h6

theorem chunk_edge_cases_witness :
    (0 : Int) < 10 ∧ (0 : Int) ≤ 8 ∧ (8 : Int) < 10 ∧
    (chunk_text [] 10 8 = some [] ∧
      (0 < "hi".data.length → ("hi".data.length : Int) ≤ 10 →
        hasContent "hi".data = true →
        ∃ rest, chunk_text "hi".data 10 8 = some ("hi".data :: rest)) ∧
      (0 < "hi".data.length → ("hi".data.length : Int) ≤ 10 - 8 →
        hasContent "hi".data = true →
        chunk_text "hi".data 10 8 = some ["hi".data])) :=
  ⟨by decide, by decide, by decide,
    chunk_edge_cases 10 8 "hi".data (by decide) (by decide) (by decide)⟩

/-- C7 counterexample: `chunk_text` performs no parameter validation.  At the
invalid parameters `size = 2`, `overlap = -1` (the claim requires
`overlap >= 0`) the call does not fail with `InvalidParameter` — the code has
no such check and no exception can arise in its body — it returns the normal
chunk list `["ab", "d"]` (the negative overlap makes the window skip the
character `"c"`). -/
theorem chunk_no_validation_counterexample :
    chunk_text "abcd".data 2 (-1) = some ["ab".data, "d".data] ∧
    chunk_text "abcd".data 2 (-1) ≠ none := by
  constructor
  · decide
  · decide

/-- C7 (amended): `chunk_text` validates nothing.  For parameters with
`overlap < size` the loop terminates and returns a chunk sequence (in
particular for all valid parameters `size > 0`, `0 <= overlap < size`);
invalid parameters are not rejected: a negative overlap silently returns
chunks (see the counterexample), and `overlap >= size > 0` on a non-empty
text makes the `while` loop run forever (the start never advances), with no
`InvalidParameter` failure on any path. -/
theorem chunk_params_behaviour :
    (∀ (text : List Char) (size overlap : Int), 0 < size → 0 ≤ overlap →
      overlap < size → ∃ cs, chunk_text text size overlap = some cs) ∧
    (∀ fuel, chunkAux "ab".data 1 1 fuel 0 = none) := by
  constructor
  · intro text size overlap _ _ h3
    exact chunk_text_total text size overlap h3
  · exact chunkAux_diverges

theorem chunk_params_behaviour_witness :
    (∃ cs, chunk_text "x".data 2 0 = some cs) ∧ chunkAux "ab".data 1 1 5 0 = none :=
  ⟨chunk_params_behaviour.1 "x".data 2 0 (by decide) (by decide) (by decide),
    chunk_params_behaviour.2 5⟩

theorem mapM_decNum_map (v : List ℚ) : (v.map Json.num).mapM decNum = some v := by
  induction v with
  | nil => rfl
  | cons a l ih =>
    rw [List.map_cons, List.mapM_cons]
    rw [show decNum (Json.num a) = some a from rfl, ih]
    rfl

theorem mapM_decVec_map (e : List (List ℚ)) :
    ((e.map (fun v => Json.arr (v.map Json.num))).mapM (decArr decNum)) = some e := by
  induction e with
  | nil => rfl
  | cons a l ih =>
    rw [List.map_cons, List.mapM_cons]
    rw [show decArr decNum (Json.arr (a.map Json.num)) = (a.map Json.num).mapM decNum
      from rfl, mapM_decNum_map, ih]
    rfl

theorem mapM_decStr_map (d : List String) : (d.map Json.str).mapM decStr = some d := by
  induction d with
  | nil => rfl
  | cons a l ih =>
    rw [List.map_cons, List.mapM_cons]
    rw [show decStr (Json.str a) = some a from rfl, ih]
    rfl

/-- C8 (confirmed): the snapshot round-trips exactly: decoding the JSON
object written by a save recovers the identical `documents` and `embeddings`
sequences, and hence the identical dimension.  (The text layer is exact for
this data: Python `json.dump`/`json.load` round-trip finite floats and
strings without loss.) -/
theorem store_roundtrip (s : VecStore) :
    loadStore (storeToJson s) = some s ∧
    ∃ s2, loadStore (storeToJson s) = some s2 ∧ s2.embeddings = s.embeddings ∧
      s2.documents = s.documents ∧ dimension s2 = dimension s := by
  have h1 : getField (storeToJson s) "embeddings" =
      some (.arr (s.embeddings.map (fun v => .arr (v.map .num)))) := rfl
  have h2 : getField (storeToJson s) "documents" =
      some (.arr (s.documents.map .str)) := rfl
  have h : loadStore (storeToJson s) = some s := by
    simp only [loadStore, h1, h2, decArr, mapM_decVec_map, mapM_decStr_map]
  exact ⟨h, s, h, rfl, rfl, rfl⟩

/-- C4 counterexample: a save over a non-empty prior snapshot passes through
the observable state `none` (a truncated, unreadable file) which is neither
the prior snapshot nor the new one: a process killed between `open(.., "w")`
and the completion of `json.dump` destroys the prior snapshot and leaves no
valid snapshot, refuting the write-to-temp-then-rename discipline claimed. -/
theorem save_not_atomic_counterexample :
    observableStates (some (storeToJson ⟨[[1]], ["a"]⟩))
        (saveOps ⟨[[1], [2]], ["a", "b"]⟩) =
      [some (storeToJson ⟨[[1]], ["a"]⟩), none,
        some (storeToJson ⟨[[1], [2]], ["a", "b"]⟩)] ∧
    (none : Option Json) ≠ some (storeToJson ⟨[[1]], ["a"]⟩) ∧
    (none : Option Json) ≠ some (storeToJson ⟨[[1], [2]], ["a", "b"]⟩) := by
  refine ⟨rfl, ?_, ?_⟩ <;> exact fun h => Option.noConfusion h

/-- C4 (amended): every save truncates `vector_store.json` in place and then
writes the new snapshot into the same file — `[truncate, write]`, no
temporary file, no rename.  Between truncation and write completion the only
observable file state is the invalid empty file, and the prior snapshot is
already destroyed at that point. -/
theorem save_truncate_then_write (prior : Option Json) (s : VecStore) :
    saveOps s = [.truncate, .write (storeToJson s)] ∧
    observableStates prior (saveOps s) = [prior, none, some (storeToJson s)] :=
  ⟨rfl, rfl⟩

/-- C5 counterexample: on the interactive query path (`get_embedding` in
src/app.py 39-45 and src/main.py 27-33) a rate-limited provider failure is
NOT retried: with a client that rate-limit-fails twice and would succeed on
the third attempt, the query-path `get_embedding` raises the first failure
immediately instead of returning the successful result. -/
theorem query_embed_no_retry_counterexample :
    getEmbeddingQuery (fun n => if n < 2 then .failure true n else .success [1]) =
      .error (.raised 0) ∧
    getEmbeddingQuery (fun n => if n < 2 then .failure true n else .success [1]) ≠
      .ok [1] := by
  constructor
  · rfl
  · exact fun h => Except.noConfusion h

/-- C5 (amended): the two retry policies live on different calls than the
claim states.  The bulk-ingestion `get_embedding` makes up to 3 attempts in
total, sleeping `30 * (attempt + 1)` seconds after each rate-limited failure
and re-raising any non-rate-limit error immediately; a client failing twice
with a rate-limit condition then succeeding makes it return the successful
result after sleeping 30 and 60 seconds.  The interactive query path's
`get_embedding` performs NO retry: any provider failure, rate-limited or
not, propagates immediately.  The 20-second-base retry exists only around
the chat-completion call of `ask` (src/main.py 123-140), which moreover
returns an error string instead of raising after exhausting its attempts. -/
theorem retry_policy_by_path :
    (∀ (client : Nat → CallOutcome (List ℚ)) (t0 t1 : Nat) (v : List ℚ),
      client 0 = .failure true t0 → client 1 = .failure true t1 →
      client 2 = .success v →
      getEmbeddingIngest client 3 = (.ok v, [30, 60])) ∧
    (∀ (client : Nat → CallOutcome (List ℚ)) (tag : Nat),
      client 0 = .failure false tag →
      getEmbeddingIngest client 3 = (.error (.raised tag), [])) ∧
    (∀ (client : Nat → CallOutcome (List ℚ)) (isRate : Bool) (tag : Nat),
      client 0 = .failure isRate tag →
      getEmbeddingQuery client = .error (.raised tag)) ∧
    (∀ (client : Nat → CallOutcome String) (t0 t1 : Nat) (ans : String),
      client 0 = .failure true t0 → client 1 = .failure true t1 →
      client 2 = .success ans →
      askChatRetry client = (.ok ans, [20, 40])) := by
  refine ⟨?_, ?_, ?_, ?_⟩
  · intro client t0 t1 v h0 h1 h2
    show getEmbeddingGo client 3 0 [] = _
    rw [show (3 : Nat) = 2 + 1 from rfl, getEmbeddingGo, h0]
    rw [show (2 : Nat) = 1 + 1 from rfl, getEmbeddingGo, h1]
    rw [show (1 : Nat) = 0 + 1 from rfl, getEmbeddingGo, h2]
    rfl
  · intro client tag h0
    show getEmbeddingGo client 3 0 [] = _
    rw [show (3 : Nat) = 2 + 1 from rfl, getEmbeddingGo, h0]
  · intro client isRate tag h0
    rw [getEmbeddingQuery, h0]
  · intro client t0 t1 ans h0 h1 h2
    show askChatGo client 3 0 [] = _
    rw [show (3 : Nat) = 2 + 1 from rfl, askChatGo, h0]
    rw [show (2 : Nat) = 1 + 1 from rfl, askChatGo, h1]
    rw [show (1 : Nat) = 0 + 1 from rfl, askChatGo, h2]
    rfl

theorem retry_policy_by_path_witness :
    getEmbeddingIngest
        (fun n => if n = 0 then .failure true 0 else
          if n = 1 then .failure true 1 else .success [1]) 3 = (.ok [1], [30, 60]) ∧
    getEmbeddingIngest (fun _ => .failure false 7) 3 = (.error (.raised 7), []) ∧
    getEmbeddingQuery (fun _ => .failure true 3) = .error (.raised 3) ∧
    askChatRetry
        (fun n => if n = 0 then .failure true 0 else
          if n = 1 then .failure true 1 else .success "ok") = (.ok "ok", [20, 40]) :=
  ⟨retry_policy_by_path.1 _ 0 1 [1] rfl rfl rfl,
    retry_policy_by_path.2.1 _ 7 rfl,
    retry_policy_by_path.2.2.1 _ true 3 rfl,
    retry_policy_by_path.2.2.2 _ 0 1 "ok" rfl rfl rfl⟩

/-- C1 (confirmed): resume correctness for a 25-chunk source with a
deterministic embedder `f`.  The store persisted by the checkpoint at chunk
10 of a fresh run is exactly the first 10 chunks with their embeddings — it
is among the saved states of the run, and it holds 10 embeddings.
Re-running ingestion from that state (the code skips the first
`len(embeddings) = 10` chunks) ends with a final save of exactly 25
documents (= the chunk list) and 25 embeddings, whose first 10 documents and
embeddings are the original 10 unchanged. -/
theorem ingest_resume_after_checkpoint (f : String → List ℚ) (chunks : List String)
    (h25 : chunks.length = 25) :
    (⟨(chunks.take 10).map f, chunks.take 10⟩ : VecStore) ∈ ingestSaves f chunks [] ∧
    ((chunks.take 10).map f).length = 10 ∧
    (ingestSaves f chunks ((chunks.take 10).map f)).getLast?
      = some ⟨chunks.map f, chunks⟩ ∧
    (chunks.map f).length = 25 ∧
    (chunks.map f).take 10 = (chunks.take 10).map f := by
  have hlen10 : ((chunks.take 10).map f).length = 10 := by
    rw [List.length_map, List.length_take, h25]
    rfl
  refine ⟨?_, hlen10, ?_, ?_, ?_⟩
  · have := ingestGo_mem_checkpoint f chunks chunks [] (by rw [List.nil_append])
      10 (by simp) (by omega) (by decide)
    rw [ingestSaves]
    simp only [List.length_nil, List.drop_zero]
    simpa using this
  · rw [ingestSaves, hlen10]
    rw [ingestGo_getLast f chunks (chunks.drop 10) 10 ((chunks.take 10).map f)]
    rw [← List.map_append, List.take_append_drop]
  · rw [List.length_map, h25]
  · rw [List.map_take]

theorem ingest_resume_after_checkpoint_witness :
    (List.replicate 25 "c").length = 25 ∧
    ((⟨((List.replicate 25 "c").take 10).map (fun _ => ([] : List ℚ)),
        (List.replicate 25 "c").take 10⟩ : VecStore) ∈
      ingestSaves (fun _ => ([] : List ℚ)) (List.replicate 25 "c") [] ∧
    (((List.replicate 25 "c").take 10).map (fun _ => ([] : List ℚ))).length = 10 ∧
    (ingestSaves (fun _ => ([] : List ℚ)) (List.replicate 25 "c")
        (((List.replicate 25 "c").take 10).map (fun _ => ([] : List ℚ)))).getLast?
      = some ⟨(List.replicate 25 "c").map (fun _ => ([] : List ℚ)),
          List.replicate 25 "c"⟩ ∧
    ((List.replicate 25 "c").map (fun _ => ([] : List ℚ))).length = 25 ∧
    ((List.replicate 25 "c").map (fun _ => ([] : List ℚ))).take 10
      = ((List.replicate 25 "c").take 10).map (fun _ => ([] : List ℚ))) :=
  ⟨by decide, ingest_resume_after_checkpoint (fun _ => ([] : List ℚ))
    (List.replicate 25 "c") (by decide)⟩

/-- C2 counterexample: a completed save CAN violate
`len(documents) == len(embeddings)`.  Run ingestion on a source that chunks
to the single chunk `["x"]` while the store on disk still holds two
embeddings from a previous, longer source: the loop is skipped
(`start_idx = 2 >= 1`) and the final save writes 2 embeddings against 1
document. -/
theorem store_invariant_counterexample :
    (ingestSaves (fun _ => ([] : List ℚ)) ["x"] [[], []]).map
      (fun s => (s.embeddings.length, s.documents.length)) = [(2, 1)] ∧
    (2 : Nat) ≠ 1 := by
  constructor
  · rfl
  · decide

/-- C2 (amended): for every run whose starting store is the aligned embedded
image of a prefix of the chunk list — in particular every fresh run and
every resume of an interrupted run on the same source with the same
parameters — every completed save (each periodic checkpoint and the final
save) holds `len(documents) = len(embeddings)`, with `embeddings[i]` the
embedding of `documents[i]` and `documents` a prefix of the chunk sequence
(insertion order preserved, nothing reordered or deleted).  The misaligned
case of the counterexample is excluded by the prefix hypothesis. -/
theorem store_invariant_aligned (f : String → List ℚ) (chunks : List String) (n : Nat)
    (hn : n ≤ chunks.length) :
    ∀ s ∈ ingestSaves f chunks ((chunks.take n).map f),
      s.documents.length = s.embeddings.length ∧
      s.embeddings = s.documents.map f ∧
      s.documents = chunks.take s.documents.length := by
  intro s hs
  have hlen : ((chunks.take n).map f).length = n := by
    rw [List.length_map, List.length_take]
    omega
  have hpre : (chunks.take n).length = n := by
    rw [List.length_take]; omega
  rw [ingestSaves, hlen] at hs
  have hall : chunks = chunks.take n ++ chunks.drop n := (List.take_append_drop n chunks).symm
  have := ingestGo_states f chunks (chunks.drop n) (chunks.take n) hall s
  rw [hpre] at this
  obtain ⟨m, hm, hsm⟩ := this hs
  have hdl : ((chunks.take m) : List String).length = m := by
    rw [List.length_take]; omega
  refine ⟨?_, ?_, ?_⟩
  · rw [hsm]
    simp only [List.length_map]
  · rw [hsm]
  · rw [hsm]
    simp only [hdl]

theorem store_invariant_aligned_witness :
    (0 ≤ (["a", "b"] : List String).length) ∧
    ((⟨["a", "b"].map (fun _ => ([] : List ℚ)), ["a", "b"]⟩ : VecStore) ∈
      ingestSaves (fun _ => ([] : List ℚ)) ["a", "b"]
        ((["a", "b"].take 0).map (fun _ => ([] : List ℚ)))) ∧
    ((⟨["a", "b"].map (fun _ => ([] : List ℚ)), ["a", "b"]⟩ : VecStore).documents.length
        = (⟨["a", "b"].map (fun _ => ([] : List ℚ)), ["a", "b"]⟩ : VecStore).embeddings.length ∧
      (⟨["a", "b"].map (fun _ => ([] : List ℚ)), ["a", "b"]⟩ : VecStore).embeddings
        = (⟨["a", "b"].map (fun _ => ([] : List ℚ)), ["a", "b"]⟩ : VecStore).documents.map
            (fun _ => ([] : List ℚ)) ∧
      (⟨["a", "b"].map (fun _ => ([] : List ℚ)), ["a", "b"]⟩ : VecStore).documents
        = (["a", "b"] : List String).take
            (⟨["a", "b"].map (fun _ => ([] : List ℚ)), ["a", "b"]⟩ : VecStore).documents.length) :=
  ⟨by decide, by decide,
    store_invariant_aligned (fun _ => ([] : List ℚ)) ["a", "b"] 0 (by decide) _ (by decide)⟩

/-- C3 counterexample to the tie-breaking direction: with two identical
stored vectors and a query equal to them, both similarities tie at 1.0;
`np.argsort` (stable on such small inputs) yields `[0, 1]`, and the `[-k:]`
slice followed by `[::-1]` reversal returns index 1 FIRST — ties are broken
by insertion index descending, not ascending as claimed. -/
theorem search_tie_order_counterexample :
    searchDocuments ⟨[[1, 0], [1, 0]], ["a", "b"]⟩ [1, 0] 2 =
      .ok [⟨"b", 1, 1⟩, ⟨"a", 1, 1⟩] ∧
    (⟨"b", 1, 1⟩ : SearchHit) ≠ ⟨"a", 1, 1⟩ := by
  constructor
  · norm_num [searchDocuments, searchIndices, argsortIdx, idxLE, keyLT, keyEQs, finKey,
      ltFin, eqFin, simKeys, dotQ, sumsq, lastSlice, List.insertionSort,
      List.orderedInsert, List.mapM, List.mapM.loop, Bind.bind, Except.bind, pure,
      Except.pure, reduceCtorEq]
    exact fun h => absurd h (List.cons_ne_nil _ _)
  · decide

/-- C3 (amended): for every non-empty store whose vectors all match the
query dimension and have non-zero norm (and a non-zero-norm query), and
every `k >= 1`, `search_documents` succeeds and returns exactly
`min k N` results, the images of the index sequence
`argsort(similarities)[-k:][::-1]`; that index sequence is ordered by
real cosine similarity strictly descending, with ties broken by original
insertion index DESCENDING (`np.argsort` modelled as the stable ascending
sort, whose reversal inverts the tie order). -/
theorem search_topk_ranking (store : VecStore) (q : List ℚ) (k : Nat)
    (hne : store.embeddings ≠ [])
    (hlen : store.documents.length = store.embeddings.length)
    (hdim : ∀ v ∈ store.embeddings, v.length = q.length)
    (hq : sumsq q ≠ 0)
    (hv : ∀ v ∈ store.embeddings, sumsq v ≠ 0)
    (hk : 1 ≤ k) :
    searchDocuments store q k = .ok ((searchIndices store q k).map (hitAt store q)) ∧
    (searchIndices store q k).length = min k store.embeddings.length ∧
    List.Pairwise (fun i j =>
      cosSim (keyAt store q j) (sumsq q) < cosSim (keyAt store q i) (sumsq q) ∨
        (cosSim (keyAt store q j) (sumsq q) = cosSim (keyAt store q i) (sumsq q) ∧ j < i))
      (searchIndices store q k) := by
  have hsh : (store.embeddings.any (fun v => decide (v.length ≠ q.length))) = false := by
    rw [List.any_eq_false]
    intro v hvmem
    simp only [decide_eq_true_eq, Decidable.not_not]
    exact hdim v hvmem
  refine ⟨?_, searchIndices_length store q k (by omega), ?_⟩
  · rw [searchDocuments, if_neg hne, if_neg (by rw [hsh]; exact Bool.false_ne_true)]
    exact mapM_ok_of_forall _ _ _ (fun i hi => search_entry_ok store q i
      (by rw [hlen]; exact searchIndices_mem_lt store q k i hi)
      (searchIndices_mem_lt store q k i hi))
  · refine List.Pairwise.imp_of_mem ?_ (searchIndices_pairwise store q k)
    intro i j hi hj hR
    obtain ⟨hle, hne2⟩ := hR
    have hfi : finKey (sumsq q) (keyAt store q i) = true :=
      keyAt_fin store q i (searchIndices_mem_lt store q k i hi) hq hv
    have hfj : finKey (sumsq q) (keyAt store q j) = true :=
      keyAt_fin store q j (searchIndices_mem_lt store q k j hj) hq hv
    rw [idxLE, Bool.or_eq_true, Bool.and_eq_true, decide_eq_true_eq] at hle
    have hkeysi : (simKeys store.embeddings q).getD i (0, 0) = keyAt store q i := rfl
    have hkeysj : (simKeys store.embeddings q).getD j (0, 0) = keyAt store q j := rfl
    rw [hkeysi, hkeysj] at hle
    rcases hle with hlt | ⟨heq, hji⟩
    · exact Or.inl ((keyLT_fin_iff _ _ _ hfj hfi).mp hlt)
    · exact Or.inr ⟨(keyEQs_fin_iff _ _ _ hfj hfi).mp heq, by omega⟩

theorem search_topk_ranking_witness :
    (⟨[[1, 0], [0, 1]], ["a", "b"]⟩ : VecStore).embeddings ≠ [] ∧
    (searchDocuments ⟨[[1, 0], [0, 1]], ["a", "b"]⟩ [1, 0] 1 =
        .ok ((searchIndices ⟨[[1, 0], [0, 1]], ["a", "b"]⟩ [1, 0] 1).map
          (hitAt ⟨[[1, 0], [0, 1]], ["a", "b"]⟩ [1, 0])) ∧
      (searchIndices ⟨[[1, 0], [0, 1]], ["a", "b"]⟩ [1, 0] 1).length =
        min 1 (⟨[[1, 0], [0, 1]], ["a", "b"]⟩ : VecStore).embeddings.length ∧
      List.Pairwise (fun i j =>
        cosSim (keyAt ⟨[[1, 0], [0, 1]], ["a", "b"]⟩ [1, 0] j)
            (sumsq ([1, 0] : List ℚ)) <
          cosSim (keyAt ⟨[[1, 0], [0, 1]], ["a", "b"]⟩ [1, 0] i)
            (sumsq ([1, 0] : List ℚ)) ∨
          (cosSim (keyAt ⟨[[1, 0], [0, 1]], ["a", "b"]⟩ [1, 0] j)
              (sumsq ([1, 0] : List ℚ)) =
            cosSim (keyAt ⟨[[1, 0], [0, 1]], ["a", "b"]⟩ [1, 0] i)
              (sumsq ([1, 0] : List ℚ)) ∧ j < i))
        (searchIndices ⟨[[1, 0], [0, 1]], ["a", "b"]⟩ [1, 0] 1)) :=
  ⟨by decide,
    search_topk_ranking ⟨[[1, 0], [0, 1]], ["a", "b"]⟩ [1, 0] 1 (by decide) (by decide)
      (by decide) (by simp [sumsq, dotQ]) (by
        intro v hv
        simp only [List.mem_cons, List.not_mem_nil, or_false] at hv
        rcases hv with h | h <;> rw [h] <;> simp [sumsq, dotQ]) (by decide)⟩

/-- C9 counterexample: an all-zero stored vector is NOT rejected.  With the
store `{[[0,0]], ["z"]}` and query `[1,0]`, the normalization divides by the
zero norm (numpy emits NaNs, no exception), and `search_documents` returns a
normal result for the zero vector instead of failing with
`DegenerateVector`. -/
theorem degenerate_vector_counterexample :
    searchDocuments ⟨[[0, 0]], ["z"]⟩ [1, 0] 5 = .ok [⟨"z", 0, 0⟩] ∧
    searchDocuments ⟨[[0, 0]], ["z"]⟩ [1, 0] 5 ≠ .error .degenerateVector := by
  have h : searchDocuments ⟨[[0, 0]], ["z"]⟩ [1, 0] 5 = .ok [⟨"z", 0, 0⟩] := by
    norm_num [searchDocuments, searchIndices, argsortIdx, idxLE, keyLT, keyEQs, finKey,
      ltFin, eqFin, simKeys, dotQ, sumsq, lastSlice, List.insertionSort,
      List.orderedInsert, List.mapM, List.mapM.loop, Bind.bind, Except.bind, pure,
      Except.pure, reduceCtorEq]
  refine ⟨h, ?_⟩
  rw [h]
  exact fun hc => Except.noConfusion hc

/-- C9 (amended): the search path has no degenerate-vector guard.  For every
store with matching dimensions and documents covering the candidates,
`search_documents` returns ok-results — it never fails with
`DegenerateVector`, even when stored vectors or the query have exactly zero
norm; the division by the zero norm yields NaN similarities, which
`np.argsort` places last in its ascending order, so after the `[::-1]`
reversal a zero-norm stored vector is ranked FIRST, as the concrete
zero-vector store here shows. -/
theorem search_unguarded_normalization :
    (∀ (store : VecStore) (q : List ℚ) (k : Nat),
      store.documents.length = store.embeddings.length →
      (∀ v ∈ store.embeddings, v.length = q.length) →
      ∃ res, searchDocuments store q k = .ok res) ∧
    searchDocuments ⟨[[0, 0], [3, 4]], ["zero", "good"]⟩ [1, 0] 2 =
      .ok [⟨"zero", 0, 0⟩, ⟨"good", 3, 25⟩] := by
  constructor
  · intro store q k hlen hdim
    by_cases hne : store.embeddings = []
    · refine ⟨[], ?_⟩
      rw [searchDocuments, if_pos hne]
    · have hsh : (store.embeddings.any (fun v => decide (v.length ≠ q.length))) = false := by
        rw [List.any_eq_false]
        intro v hvmem
        simp only [decide_eq_true_eq, Decidable.not_not]
        exact hdim v hvmem
      refine ⟨(searchIndices store q k).map (hitAt store q), ?_⟩
      rw [searchDocuments, if_neg hne, if_neg (by rw [hsh]; exact Bool.false_ne_true)]
      exact mapM_ok_of_forall _ _ _ (fun i hi => search_entry_ok store q i
        (by rw [hlen]; exact searchIndices_mem_lt store q k i hi)
        (searchIndices_mem_lt store q k i hi))
  · norm_num [searchDocuments, searchIndices, argsortIdx, idxLE, keyLT, keyEQs, finKey,
      ltFin, eqFin, simKeys, dotQ, sumsq, lastSlice, List.insertionSort,
      List.orderedInsert, List.mapM, List.mapM.loop, Bind.bind, Except.bind, pure,
      Except.pure, reduceCtorEq]
    exact fun h => absurd h (List.cons_ne_nil _ _)

theorem search_unguarded_normalization_witness :
    ((⟨[[0, 0]], ["z"]⟩ : VecStore).documents.length
      = (⟨[[0, 0]], ["z"]⟩ : VecStore).embeddings.length) ∧
    (∃ res, searchDocuments ⟨[[0, 0]], ["z"]⟩ [1, 0] 5 = .ok res) :=
  ⟨by decide,
    search_unguarded_normalization.1 ⟨[[0, 0]], ["z"]⟩ [1, 0] 5 (by decide) (by decide)⟩

/-- C10 (confirmed): for a non-empty store, `search` with `k = 0` does not
return an empty sequence: since `-0 == 0`, the slice
`np.argsort(similarities)[-0:]` is the WHOLE ascending ranking, so the
call returns all `store.size()` results, identical to a search with
`k = store.size()` — the full ranking, similarity descending. -/
theorem search_k_zero_returns_all (store : VecStore) (q : List ℚ)
    (hne : store.embeddings ≠ []) :
    searchIndices store q 0 = searchIndices store q store.embeddings.length ∧
    (searchIndices store q 0).length = store.embeddings.length ∧
    searchIndices store q 0 ≠ [] ∧
    searchDocuments store q 0 = searchDocuments store q store.embeddings.length := by
  have hidx : searchIndices store q 0 = searchIndices store q store.embeddings.length := by
    rw [searchIndices, searchIndices, lastSlice_zero, lastSlice_all _ _ (by
      rw [argsortIdx_length])]
  have hlen0 : (searchIndices store q 0).length = store.embeddings.length := by
    rw [searchIndices, lastSlice_zero, List.length_reverse, argsortIdx_length]
  refine ⟨hidx, hlen0, ?_, ?_⟩
  · intro hnil
    rw [hnil] at hlen0
    exact hne (List.eq_nil_of_length_eq_zero hlen0.symm)
  · rw [searchDocuments, searchDocuments, hidx]

theorem search_k_zero_returns_all_witness :
    (⟨[[1, 0], [0, 1]], ["a", "b"]⟩ : VecStore).embeddings ≠ [] ∧
    (searchIndices ⟨[[1, 0], [0, 1]], ["a", "b"]⟩ [1, 0] 0 =
        searchIndices ⟨[[1, 0], [0, 1]], ["a", "b"]⟩ [1, 0]
          (⟨[[1, 0], [0, 1]], ["a", "b"]⟩ : VecStore).embeddings.length ∧
      (searchIndices ⟨[[1, 0], [0, 1]], ["a", "b"]⟩ [1, 0] 0).length =
        (⟨[[1, 0], [0, 1]], ["a", "b"]⟩ : VecStore).embeddings.length ∧
      searchIndices ⟨[[1, 0], [0, 1]], ["a", "b"]⟩ [1, 0] 0 ≠ [] ∧
      searchDocuments ⟨[[1, 0], [0, 1]], ["a", "b"]⟩ [1, 0] 0 =
        searchDocuments ⟨[[1, 0], [0, 1]], ["a", "b"]⟩ [1, 0]
          (⟨[[1, 0], [0, 1]], ["a", "b"]⟩ : VecStore).embeddings.length) :=
  ⟨by decide,
    search_k_zero_returns_all ⟨[[1, 0], [0, 1]], ["a", "b"]⟩ [1, 0] (by decide)⟩

end Lawxygen
